import Mathlib

/-!
Shallow embedding of the raytracer-rust rendering core, translated from the
repository sources (src/vector.rs, src/ray.rs, src/hit.rs, src/sphere.rs,
src/material.rs, src/utils.rs).  Rust f64 arithmetic is idealised as real
arithmetic; the f64 value INFINITY (used as t_max in ray_color) is modelled
by working with EReal upper bounds.  Random draws consumed by the material
scatter functions are passed as explicit parameters.
-/

open scoped Classical

/-- Semantic tag of a 3-vector, from src/vector.rs (enum VectorType). -/
inductive VectorType where
  | Vector
  | Color
  | Point
deriving DecidableEq

/-- Tagged 3-vector, from src/vector.rs (struct Vector; fields x, y, z are the
Rust tuple components data.0, data.1, data.2).  Named Vec here because the
name Vector is taken by the library. -/
structure Vec where
  x : ℝ
  y : ℝ
  z : ℝ
  data_type : VectorType

/-- Dot product, from src/vector.rs (Vector::dot). -/
noncomputable def Vec.dot (v w : Vec) : ℝ :=
  v.x * w.x + v.y * w.y + v.z * w.z

/-- Squared length, from src/vector.rs (Vector::length_squared). -/
noncomputable def Vec.length_squared (v : Vec) : ℝ :=
  v.x * v.x + v.y * v.y + v.z * v.z

/-- Length, from src/vector.rs (Vector::len). -/
noncomputable def Vec.len (v : Vec) : ℝ :=
  Real.sqrt v.length_squared

/-- Cross product, from src/vector.rs (Vector::cross); the result carries the
left operand's tag. -/
noncomputable def Vec.cross (v w : Vec) : Vec :=
  ⟨v.y * w.z - v.z * w.y, v.z * w.x - v.x * w.z, v.x * w.y - v.y * w.x, v.data_type⟩

noncomputable instance : Add Vec :=
  ⟨fun a b => ⟨a.x + b.x, a.y + b.y, a.z + b.z, a.data_type⟩⟩

noncomputable instance : Sub Vec :=
  ⟨fun a b => ⟨a.x - b.x, a.y - b.y, a.z - b.z, a.data_type⟩⟩

noncomputable instance : Neg Vec :=
  ⟨fun a => ⟨-a.x, -a.y, -a.z, a.data_type⟩⟩

noncomputable instance : Mul Vec :=
  ⟨fun a b => ⟨a.x * b.x, a.y * b.y, a.z * b.z, a.data_type⟩⟩

noncomputable instance : Div Vec :=
  ⟨fun a b => ⟨a.x / b.x, a.y / b.y, a.z / b.z, a.data_type⟩⟩

/-- Scalar multiplication, from src/vector.rs (impl Mul of f64 for Vector). -/
noncomputable def Vec.mulScalar (v : Vec) (k : ℝ) : Vec :=
  ⟨v.x * k, v.y * k, v.z * k, v.data_type⟩

/-- Scalar division, from src/vector.rs (impl Div of f64 for Vector). -/
noncomputable def Vec.divScalar (v : Vec) (k : ℝ) : Vec :=
  ⟨v.x / k, v.y / k, v.z / k, v.data_type⟩

noncomputable instance : HMul Vec ℝ Vec := ⟨Vec.mulScalar⟩

/-- Rust impl Mul of Vector for f64 delegates to the vector-by-scalar
multiplication, so the tag of the sole vector operand is kept. -/
noncomputable instance : HMul ℝ Vec Vec := ⟨fun k v => v.mulScalar k⟩

noncomputable instance : HDiv Vec ℝ Vec := ⟨Vec.divScalar⟩

/-- Unit vector, from src/vector.rs (Vector::get_unit_vector). -/
noncomputable def Vec.get_unit_vector (v : Vec) : Vec :=
  v.divScalar v.len

/-- Machine epsilon of f64, the constant used by Vector::near_zero. -/
noncomputable def f64_epsilon : ℝ :=
  ((2:ℝ) ^ (52:ℕ))⁻¹

/-- Near-zero test, from src/vector.rs (Vector::near_zero): all three
components have absolute value below f64::EPSILON. -/
def Vec.near_zero (v : Vec) : Prop :=
  |v.x| < f64_epsilon ∧ |v.y| < f64_epsilon ∧ |v.z| < f64_epsilon

@[simp] theorem Vec.add_mk (a b c d e f : ℝ) (t u : VectorType) :
    (Vec.mk a b c t) + (Vec.mk d e f u) = Vec.mk (a + d) (b + e) (c + f) t := rfl

@[simp] theorem Vec.sub_mk (a b c d e f : ℝ) (t u : VectorType) :
    (Vec.mk a b c t) - (Vec.mk d e f u) = Vec.mk (a - d) (b - e) (c - f) t := rfl

@[simp] theorem Vec.neg_mk (a b c : ℝ) (t : VectorType) :
    -(Vec.mk a b c t) = Vec.mk (-a) (-b) (-c) t := rfl

@[simp] theorem Vec.mul_mk (a b c d e f : ℝ) (t u : VectorType) :
    (Vec.mk a b c t) * (Vec.mk d e f u) = Vec.mk (a * d) (b * e) (c * f) t := rfl

@[simp] theorem Vec.div_mk (a b c d e f : ℝ) (t u : VectorType) :
    (Vec.mk a b c t) / (Vec.mk d e f u) = Vec.mk (a / d) (b / e) (c / f) t := rfl

@[simp] theorem Vec.mulScalar_mk (a b c k : ℝ) (t : VectorType) :
    (Vec.mk a b c t).mulScalar k = Vec.mk (a * k) (b * k) (c * k) t := rfl

@[simp] theorem Vec.divScalar_mk (a b c k : ℝ) (t : VectorType) :
    (Vec.mk a b c t).divScalar k = Vec.mk (a / k) (b / k) (c / k) t := rfl

@[simp] theorem Vec.hmul_scalar_def (v : Vec) (k : ℝ) :
    v * k = v.mulScalar k := rfl

@[simp] theorem Vec.scalar_hmul_def (v : Vec) (k : ℝ) :
    k * v = v.mulScalar k := rfl

@[simp] theorem Vec.hdiv_scalar_def (v : Vec) (k : ℝ) :
    v / k = v.divScalar k := rfl

@[simp] theorem Vec.dot_mk (a b c d e f : ℝ) (t u : VectorType) :
    (Vec.mk a b c t).dot (Vec.mk d e f u) = a * d + b * e + c * f := rfl

@[simp] theorem Vec.length_squared_mk (a b c : ℝ) (t : VectorType) :
    (Vec.mk a b c t).length_squared = a * a + b * b + c * c := rfl

/-- Ray, from src/ray.rs (struct Ray). -/
structure Ray where
  origin : Vec
  direction : Vec

/-- Position along a ray, from src/ray.rs (Ray::at). -/
noncomputable def Ray.at (r : Ray) (t : ℝ) : Vec :=
  r.origin + t * r.direction

/-- Diffuse material, from src/material.rs (struct Lambertian). -/
structure Lambertian where
  albedo : Vec

/-- Specular material, from src/material.rs (struct Metal). -/
structure Metal where
  albedo : Vec
  fuzz : ℝ

/-- Refractive material, from src/material.rs (struct Dielectric). -/
structure Dielectric where
  ir : ℝ

/-- Material union, from src/material.rs (enum Material). -/
inductive Material where
  | lambertian (l : Lambertian)
  | metal (m : Metal)
  | dielectric (d : Dielectric)

/-- Hit record, from src/hit.rs (struct HitRecord); the Rust record borrows
the material from the scene, modelled here as an owned copy.  The Rust bool
front_face, computed by a floating comparison, is modelled as the
corresponding proposition. -/
structure HitRecord where
  point : Vec
  normal : Vec
  t : ℝ
  front_face : Prop
  material : Material

/-- Random draws consumed by one scatter call: unif models one rng.gen call
in [0,1) (used by Dielectric), ball models one Vector::random_in_unit_sphere
result (used by Metal and Lambertian). -/
structure RandDraw where
  unif : ℝ
  ball : Vec

/-- Sphere surface, from src/sphere.rs (struct Sphere). -/
structure Sphere where
  center : Vec
  radius : ℝ
  material : Material

/-- Quadratic coefficient a of the sphere intersection, from src/sphere.rs
(Sphere::hit, let a = r.direction.length_squared()). -/
noncomputable def Sphere.hitA (_s : Sphere) (r : Ray) : ℝ :=
  r.direction.length_squared

/-- Quadratic half coefficient, from src/sphere.rs (Sphere::hit,
let half_b = oc.dot(r.direction) with oc = r.origin - center). -/
noncomputable def Sphere.hitHalfB (s : Sphere) (r : Ray) : ℝ :=
  (r.origin - s.center).dot r.direction

/-- Quadratic constant coefficient, from src/sphere.rs (Sphere::hit,
let c = oc.length_squared() - radius * radius). -/
noncomputable def Sphere.hitC (s : Sphere) (r : Ray) : ℝ :=
  (r.origin - s.center).length_squared - s.radius * s.radius

/-- Discriminant of the sphere intersection quadratic, from src/sphere.rs
(Sphere::hit, half_b * half_b - a * c). -/
noncomputable def Sphere.discriminant (s : Sphere) (r : Ray) : ℝ :=
  s.hitHalfB r * s.hitHalfB r - s.hitA r * s.hitC r

/-- Smaller quadratic root formula, from src/sphere.rs (Sphere::hit,
(-half_b - discriminant.sqrt()) / a). -/
noncomputable def Sphere.root1 (s : Sphere) (r : Ray) : ℝ :=
  (-s.hitHalfB r - Real.sqrt (s.discriminant r)) / s.hitA r

/-- Larger quadratic root formula, from src/sphere.rs (Sphere::hit,
(-half_b + discriminant.sqrt()) / a). -/
noncomputable def Sphere.root2 (s : Sphere) (r : Ray) : ℝ :=
  (-s.hitHalfB r + Real.sqrt (s.discriminant r)) / s.hitA r

/-- Construction of the returned hit record at an accepted root, from
src/sphere.rs (Sphere::hit, the tail after root acceptance): intersection
point, outward normal (point - center) / radius, front_face test, and the
orientation-corrected stored normal. -/
noncomputable def Sphere.mkHitRecord (s : Sphere) (r : Ray) (root : ℝ) : HitRecord :=
  let point := r.at root
  let normal := (point - s.center) / s.radius
  let front_face := r.direction.dot normal < 0
  { t := root
    point := point
    normal := if front_face then normal else -normal
    front_face := front_face
    material := s.material }

/-- Ray-sphere intersection, from src/sphere.rs (Sphere::hit).  The mutable
root rebinding of the Rust code is unfolded into nested conditionals; t_max
is an EReal so that the caller ray_color can pass f64::INFINITY. -/
noncomputable def Sphere.hit (s : Sphere) (r : Ray) (t_min : ℝ) (t_max : EReal) :
    Option HitRecord :=
  if s.discriminant r < 0 then none
  else if s.root1 r < t_min ∨ t_max < (s.root1 r : EReal) then
    if s.root2 r < t_min ∨ t_max < (s.root2 r : EReal) then none
    else some (s.mkHitRecord r (s.root2 r))
  else some (s.mkHitRecord r (s.root1 r))

/-- Loop body of hit_world, from src/sphere.rs (hit_world): scan the list
keeping the closest accepted hit so far, shrinking the upper bound to the
current closest t. -/
noncomputable def hit_world_loop (r : Ray) (t_min : ℝ) :
    List Sphere → EReal → Option HitRecord → Option HitRecord
  | [], _, acc => acc
  | sphere :: rest, closest_so_far, acc =>
    match sphere.hit r t_min closest_so_far with
    | some hit => hit_world_loop r t_min rest (hit.t : EReal) (some hit)
    | none => hit_world_loop r t_min rest closest_so_far acc

/-- Scene query, from src/sphere.rs (hit_world). -/
noncomputable def hit_world (world : List Sphere) (r : Ray) (t_min : ℝ)
    (t_max : EReal) : Option HitRecord :=
  hit_world_loop r t_min world t_max none

/-- Mirror reflection, from src/material.rs (fn reflect). -/
noncomputable def reflect (v n : Vec) : Vec :=
  v - n * (2 * v.dot n)

/-- Snell refraction, from src/material.rs (fn refract). -/
noncomputable def refract (uv n : Vec) (etai_over_eatt : ℝ) : Vec :=
  let cos_theta : ℝ := min ((-uv).dot n) 1
  let r_out_perp := (uv + n * cos_theta) * etai_over_eatt
  let r_out_parallel := n * (-1 * Real.sqrt |1 - r_out_perp.length_squared|)
  r_out_parallel + r_out_perp

/-- Schlick reflectance approximation, from src/material.rs (fn reflectance). -/
noncomputable def reflectance (cosine ref_idx : ℝ) : ℝ :=
  let r0 := (1 - ref_idx) / (1 + ref_idx)
  let r0 := r0 * r0
  r0 + (1 - r0) * (1 - cosine) ^ (5:ℕ)

/-- Metal constructor, from src/material.rs (Metal::new): fuzz is kept when
below 1 and replaced by 1 otherwise. -/
noncomputable def Metal.new (albedo : Vec) (fuzz : ℝ) : Metal :=
  ⟨albedo, if fuzz < 1 then fuzz else 1⟩

/-- Dielectric scattering, from src/material.rs (impl Scatterable for
Dielectric); the one uniform random draw is rnd.unif. -/
noncomputable def Dielectric.scatter (d : Dielectric) (rnd : RandDraw) (r : Ray)
    (hit_record : HitRecord) : Option (Option Ray × Vec) :=
  let attenuation := Vec.mk 1 1 1 VectorType.Color
  let refraction_ratio := if hit_record.front_face then 1 / d.ir else d.ir
  let unit_direction := r.direction.get_unit_vector
  let cos_theta : ℝ := min ((-unit_direction).dot hit_record.normal) 1
  let sin_theta := Real.sqrt (1 - cos_theta * cos_theta)
  let cannot_refract := refraction_ratio * sin_theta > 1
  if cannot_refract ∨ reflectance cos_theta refraction_ratio > rnd.unif then
    some (some ⟨hit_record.point, reflect unit_direction hit_record.normal⟩, attenuation)
  else
    some (some ⟨hit_record.point, refract unit_direction hit_record.normal refraction_ratio⟩,
      attenuation)

/-- Metal scattering, from src/material.rs (impl Scatterable for Metal); the
random point in the unit ball is rnd.ball. -/
noncomputable def Metal.scatter (m : Metal) (rnd : RandDraw) (ray : Ray)
    (hit_record : HitRecord) : Option (Option Ray × Vec) :=
  let reflected := reflect ray.direction.get_unit_vector hit_record.normal
  let scattered : Ray := ⟨hit_record.point, reflected + m.fuzz * rnd.ball⟩
  let attenuation := m.albedo
  if scattered.direction.dot hit_record.normal > 0 then
    some (some scattered, attenuation)
  else
    none

/-- Lambertian scattering, from src/material.rs (impl Scatterable for
Lambertian); the random point in the unit ball is rnd.ball. -/
noncomputable def Lambertian.scatter (l : Lambertian) (rnd : RandDraw) (_ray : Ray)
    (hit_record : HitRecord) : Option (Option Ray × Vec) :=
  let scatter_direction := hit_record.normal + rnd.ball
  let scatter_direction :=
    if scatter_direction.near_zero then hit_record.normal else scatter_direction
  some (some ⟨hit_record.point, scatter_direction⟩, l.albedo)

/-- Material dispatch, from src/material.rs (impl Scatterable for Material). -/
noncomputable def Material.scatter (mat : Material) (rnd : RandDraw) (ray : Ray)
    (hit_record : HitRecord) : Option (Option Ray × Vec) :=
  match mat with
  | Material.metal m => m.scatter rnd ray hit_record
  | Material.lambertian l => l.scatter rnd ray hit_record
  | Material.dielectric d => d.scatter rnd ray hit_record

/-- Path integrator, from src/utils.rs (ray_color).  The Rust u64 depth is a
natural number: the depth <= 0 test is the zero case and each recursive call
passes depth - 1.  The random draws are an explicit stream rnd, whose head is
consumed by the scatter of this bounce and whose tail feeds the recursion. -/
noncomputable def ray_color (world : List Sphere) : (ℕ → RandDraw) → Ray → ℕ → Vec
  | _, _, 0 => Vec.mk 0 0 0 VectorType.Color
  | rnd, r, depth + 1 =>
    match hit_world world r 0.0001 ⊤ with
    | some hit_record =>
      match hit_record.material.scatter (rnd 0) r hit_record with
      | some (some sr, albedo) =>
        albedo * ray_color world (fun n => rnd (n + 1)) sr depth
      | some (none, albedo) => albedo
      | none => Vec.mk 0 0 0 VectorType.Color
    | none =>
      let unit_direction := r.direction.get_unit_vector
      let t := 0.5 * (unit_direction.y + 1)
      (1 - t) * Vec.mk 1 1 1 VectorType.Color + t * Vec.mk 0.5 0.7 1 VectorType.Color

/-- Number of recursive self-calls performed by ray_color, mirroring its
branch structure: one per scattered bounce, none on absorption, miss, or
exhausted depth. -/
noncomputable def ray_color_calls (world : List Sphere) : (ℕ → RandDraw) → Ray → ℕ → ℕ
  | _, _, 0 => 0
  | rnd, r, depth + 1 =>
    match hit_world world r 0.0001 ⊤ with
    | some hit_record =>
      match hit_record.material.scatter (rnd 0) r hit_record with
      | some (some sr, _) => 1 + ray_color_calls world (fun n => rnd (n + 1)) sr depth
      | some (none, _) => 0
      | none => 0
    | none => 0

/-! Concrete fixtures used by witnesses and counterexamples. -/

/-- Zero vector with the Vector tag. -/
noncomputable def vzeroVec : Vec := Vec.mk 0 0 0 VectorType.Vector

/-- Origin point. -/
noncomputable def ptZero : Vec := Vec.mk 0 0 0 VectorType.Point

/-- Concrete albedo color. -/
noncomputable def albM : Vec := Vec.mk 1 0 0 VectorType.Color

/-- Concrete Lambertian material. -/
noncomputable def lambWhite : Lambertian := ⟨Vec.mk 1 1 1 VectorType.Color⟩

/-- Concrete random draw: uniform value 0 and zero unit-ball point. -/
noncomputable def rnd0 : RandDraw := ⟨0, vzeroVec⟩

/-- Constant random stream built from rnd0. -/
noncomputable def rnd0s : ℕ → RandDraw := fun _ => rnd0

/-- Ray from the origin pointing along negative z. -/
noncomputable def rayM : Ray := ⟨ptZero, Vec.mk 0 0 (-1) VectorType.Vector⟩

/-- Ray from the origin pointing straight down. -/
noncomputable def rayDownY : Ray := ⟨ptZero, Vec.mk 0 (-1) 0 VectorType.Vector⟩

/-- Hit record facing the metal test ray, with stored normal along negative z. -/
noncomputable def recM : HitRecord :=
  { point := ptZero, normal := Vec.mk 0 0 (-1) VectorType.Point, t := 0,
    front_face := True, material := Material.metal ⟨albM, 0⟩ }

/-- Hit record for the dielectric test: back face, normal orthogonal to the
incoming direction, forcing total internal reflection for ir = 3. -/
noncomputable def recD : HitRecord :=
  { point := ptZero, normal := Vec.mk 1 0 0 VectorType.Point, t := 0,
    front_face := False, material := Material.dielectric ⟨3⟩ }

/-- Degenerate hit record whose stored normal is the zero vector. -/
noncomputable def recDegenerate : HitRecord :=
  { point := ptZero, normal := vzeroVec, t := 0, front_face := True,
    material := Material.lambertian lambWhite }

/-- Hit record with unit normal along y. -/
noncomputable def recUnitY : HitRecord :=
  { point := ptZero, normal := Vec.mk 0 1 0 VectorType.Point, t := 0,
    front_face := True, material := Material.lambertian lambWhite }

/-- C9: every arithmetic operation on tagged vectors (add, subtract, negate,
elementwise multiply and divide, vector-scalar multiply and divide,
scalar-vector multiply, and cross product) returns a vector carrying the tag
of the left or sole vector operand; no operation changes or recomputes a
tag. -/
theorem C9_tag_preservation (a b : Vec) (k : ℝ) :
    (a + b).data_type = a.data_type ∧
    (a - b).data_type = a.data_type ∧
    (-a).data_type = a.data_type ∧
    (a * b).data_type = a.data_type ∧
    (a / b).data_type = a.data_type ∧
    (a * k).data_type = a.data_type ∧
    (a / k).data_type = a.data_type ∧
    (k * a).data_type = a.data_type ∧
    (a.cross b).data_type = a.data_type :=
  ⟨rfl, rfl, rfl, rfl, rfl, rfl, rfl, rfl, rfl⟩

/-- C10: for every material variant, Material::scatter returns either None or
Some((Some(ray), attenuation)); it never produces Some((None, _)), so the
arm of ray_color that returns the bare attenuation without recursing is
unreachable. -/
theorem C10_scatter_never_some_none (m : Material) (rnd : RandDraw) (r : Ray)
    (rec : HitRecord) :
    m.scatter rnd r rec = none ∨
      ∃ sr att, m.scatter rnd r rec = some (some sr, att) := by
  cases m with
  | lambertian l => exact Or.inr ⟨_, _, rfl⟩
  | metal mm =>
    simp only [Material.scatter, Metal.scatter]
    split
    · exact Or.inr ⟨_, _, rfl⟩
    · exact Or.inl rfl
  | dielectric d =>
    refine Or.inr ?_
    simp only [Material.scatter, Dielectric.scatter]
    split
    · split
      · exact ⟨_, _, rfl⟩
      · exact ⟨_, _, rfl⟩
    · split
      · exact ⟨_, _, rfl⟩
      · exact ⟨_, _, rfl⟩

/-- C8 counterexample: Metal::new with fuzz input -1 keeps fuzz = -1, which
is not in [0, 1]; the claim that every constructed Metal has fuzz in [0, 1]
is false, because only the upper bound is clamped. -/
theorem C8_counterexample :
    (Metal.new albM (-1)).fuzz = -1 ∧ ¬ (0 ≤ (Metal.new albM (-1)).fuzz) := by
  have h : (Metal.new albM (-1)).fuzz = -1 := by
    show (if (-1:ℝ) < 1 then (-1:ℝ) else 1) = -1
    rw [if_pos (by norm_num)]
  exact ⟨h, by rw [h]; norm_num⟩

/-- C8 (amended): Metal::new keeps the albedo and sets fuzz to the input when
the input is below 1 and to exactly 1 otherwise; hence the stored fuzz is
always at most 1, inputs above 1 are clamped to exactly 1, inputs at most 1
(in particular all of [0, 1]) are kept unchanged, and the stored fuzz lies in
[0, 1] whenever the input is nonnegative.  Negative inputs pass through
unclamped. -/
theorem C8_metal_new_clamp (a : Vec) (f : ℝ) :
    (Metal.new a f).albedo = a ∧
    (Metal.new a f).fuzz = (if f < 1 then f else 1) ∧
    (Metal.new a f).fuzz ≤ 1 ∧
    (1 < f → (Metal.new a f).fuzz = 1) ∧
    (f ≤ 1 → (Metal.new a f).fuzz = f) ∧
    (0 ≤ f → 0 ≤ (Metal.new a f).fuzz ∧ (Metal.new a f).fuzz ≤ 1) := by
  have hfuzz : (Metal.new a f).fuzz = (if f < 1 then f else 1) := rfl
  have hle : (Metal.new a f).fuzz ≤ 1 := by
    rw [hfuzz]
    by_cases h : f < 1
    · rw [if_pos h]; exact le_of_lt h
    · rw [if_neg h]
  refine ⟨rfl, hfuzz, hle, ?_, ?_, ?_⟩
  · intro h
    rw [hfuzz, if_neg (not_lt.mpr (le_of_lt h))]
  · intro h
    rw [hfuzz]
    by_cases hlt : f < 1
    · rw [if_pos hlt]
    · rw [if_neg hlt]
      exact le_antisymm (not_lt.mp hlt) h
  · intro h
    refine ⟨?_, hle⟩
    rw [hfuzz]
    by_cases hlt : f < 1
    · rw [if_pos hlt]; exact h
    · rw [if_neg hlt]; norm_num

/-- Witness for C8: inputs 2 and 0 give stored fuzz 1 and 0 respectively. -/
theorem C8_witness : (Metal.new albM 2).fuzz = 1 ∧ (Metal.new albM 0).fuzz = 0 :=
  ⟨(C8_metal_new_clamp albM 2).2.2.2.1 (by norm_num),
   (C8_metal_new_clamp albM 0).2.2.2.2.1 (by norm_num)⟩

/-- C7 (amended): Lambertian scatter always returns a scattered ray (never
Absorbed) from the hit point with attenuation equal to its albedo; the
direction is normal plus the random unit-ball point, falling back to the
normal itself when that sum is near-zero; consequently the returned
direction is never near-zero provided the hit record's stored normal is not
itself near-zero. -/
theorem C7_lambertian_scatter (l : Lambertian) (rnd : RandDraw) (r : Ray)
    (rec : HitRecord) :
    ∃ d, l.scatter rnd r rec = some (some ⟨rec.point, d⟩, l.albedo) ∧
      d = (if (rec.normal + rnd.ball).near_zero then rec.normal
           else rec.normal + rnd.ball) ∧
      (¬ rec.normal.near_zero → ¬ d.near_zero) := by
  refine ⟨_, rfl, rfl, ?_⟩
  intro hn
  by_cases h : (rec.normal + rnd.ball).near_zero
  · rw [if_pos h]; exact hn
  · rw [if_neg h]; exact h

/-- C7 counterexample: on a hit record whose stored normal is the zero
vector, with the random unit-ball point also zero, Lambertian scatter
returns a ray whose direction is near-zero, refuting the claim that the
returned direction is never near-zero for every hit record. -/
theorem C7_counterexample :
    lambWhite.scatter rnd0 rayM recDegenerate =
      some (some ⟨recDegenerate.point, vzeroVec⟩, lambWhite.albedo) ∧
    vzeroVec.near_zero := by
  have heps : (0:ℝ) < f64_epsilon := by
    rw [f64_epsilon]; positivity
  have hz : vzeroVec.near_zero := by
    refine ⟨?_, ?_, ?_⟩ <;> simp [vzeroVec, heps]
  have hsum : (recDegenerate.normal + rnd0.ball) = vzeroVec := by
    simp [recDegenerate, rnd0, vzeroVec]
  refine ⟨?_, hz⟩
  show some (some (⟨recDegenerate.point,
      if (recDegenerate.normal + rnd0.ball).near_zero then recDegenerate.normal
      else recDegenerate.normal + rnd0.ball⟩ : Ray), lambWhite.albedo) =
    some (some (⟨recDegenerate.point, vzeroVec⟩ : Ray), lambWhite.albedo)
  rw [hsum, if_pos hz]
  show some (some (⟨recDegenerate.point, vzeroVec⟩ : Ray), lambWhite.albedo) = _
  rfl

/-- Witness for C7: with a unit normal along y and a zero random point, the
scattered direction is not near-zero. -/
theorem C7_witness :
    ∃ d, lambWhite.scatter rnd0 rayM recUnitY =
        some (some ⟨recUnitY.point, d⟩, lambWhite.albedo) ∧ ¬ d.near_zero := by
  obtain ⟨d, h1, _h2, h3⟩ := C7_lambertian_scatter lambWhite rnd0 rayM recUnitY
  refine ⟨d, h1, h3 ?_⟩
  intro hnz
  have h1abs := hnz.2.1
  have : |(recUnitY.normal).y| = 1 := by simp [recUnitY]
  rw [this] at h1abs
  have : f64_epsilon ≤ 1 := by
    rw [f64_epsilon]
    rw [inv_le_one_iff₀]
    right
    norm_num
  linarith

/-- C6: Metal scatter computes the candidate direction reflect of the unit
incoming direction about the stored normal, perturbed by fuzz times the
random unit-ball point; it returns Absorbed (none) exactly when that
candidate's dot product with the stored normal is at most 0, and otherwise
returns a scattered ray with that direction, origin at the hit point, and
attenuation equal to the metal's albedo. -/
theorem C6_metal_scatter (m : Metal) (rnd : RandDraw) (r : Ray) (rec : HitRecord) :
    (Vec.dot (reflect r.direction.get_unit_vector rec.normal + m.fuzz * rnd.ball)
        rec.normal ≤ 0 →
      m.scatter rnd r rec = none) ∧
    (0 < Vec.dot (reflect r.direction.get_unit_vector rec.normal + m.fuzz * rnd.ball)
        rec.normal →
      m.scatter rnd r rec =
        some (some ⟨rec.point,
          reflect r.direction.get_unit_vector rec.normal + m.fuzz * rnd.ball⟩,
          m.albedo)) := by
  constructor
  · intro h
    simp only [Metal.scatter]
    rw [if_neg (not_lt.mpr h)]
  · intro h
    simp only [Metal.scatter]
    rw [if_pos h]

/-- Witness for C6: normal incidence onto a surface whose stored normal
points along the incoming direction gives a candidate pointing into the
surface, so the ray is absorbed. -/
theorem C6_witness : (Metal.mk albM 0).scatter rnd0 rayM recM = none := by
  apply (C6_metal_scatter ⟨albM, 0⟩ rnd0 rayM recM).1
  have hlen : (rayM.direction).len = 1 := by
    simp only [rayM, Vec.len, Vec.length_squared_mk]
    norm_num [Real.sqrt_one]
  have hunit : rayM.direction.get_unit_vector = Vec.mk 0 0 (-1) VectorType.Vector := by
    rw [Vec.get_unit_vector, hlen]
    simp only [rayM, Vec.divScalar_mk]
    norm_num
  rw [hunit]
  simp only [recM, rnd0, vzeroVec, reflect, Vec.dot_mk, Vec.hmul_scalar_def,
    Vec.scalar_hmul_def, Vec.mulScalar_mk, Vec.sub_mk, Vec.add_mk]
  norm_num

/-- C5: Dielectric scatter always returns a scattered ray (never the
Absorbed outcome) from the hit point with attenuation exactly white; and
whenever refraction_ratio times sin_theta exceeds 1 (total internal
reflection, with refraction_ratio = 1/ir on a front face and ir otherwise),
the returned direction is the reflection of the unit incoming direction
about the stored normal, for every value drawn from the random source. -/
theorem C5_dielectric_scatter (d : Dielectric) (rnd : RandDraw) (r : Ray)
    (rec : HitRecord) :
    ∃ sr, d.scatter rnd r rec = some (some sr, Vec.mk 1 1 1 VectorType.Color) ∧
      sr.origin = rec.point ∧
      ((if rec.front_face then 1 / d.ir else d.ir) *
          Real.sqrt (1 - min ((-(r.direction.get_unit_vector)).dot rec.normal) 1 *
            min ((-(r.direction.get_unit_vector)).dot rec.normal) 1) > 1 →
        sr.direction = reflect r.direction.get_unit_vector rec.normal) := by
  simp only [Dielectric.scatter]
  by_cases hff : rec.front_face
  · rw [if_pos hff]
    by_cases hc : (1 / d.ir *
        Real.sqrt (1 - min ((-(r.direction.get_unit_vector)).dot rec.normal) 1 *
          min ((-(r.direction.get_unit_vector)).dot rec.normal) 1) > 1 ∨
        reflectance (min ((-(r.direction.get_unit_vector)).dot rec.normal) 1)
          (1 / d.ir) > rnd.unif)
    · rw [if_pos hc]
      exact ⟨_, rfl, rfl, fun _ => rfl⟩
    · rw [if_neg hc]
      exact ⟨_, rfl, rfl, fun h => absurd (Or.inl h) hc⟩
  · rw [if_neg hff]
    by_cases hc : (d.ir *
        Real.sqrt (1 - min ((-(r.direction.get_unit_vector)).dot rec.normal) 1 *
          min ((-(r.direction.get_unit_vector)).dot rec.normal) 1) > 1 ∨
        reflectance (min ((-(r.direction.get_unit_vector)).dot rec.normal) 1)
          d.ir > rnd.unif)
    · rw [if_pos hc]
      exact ⟨_, rfl, rfl, fun _ => rfl⟩
    · rw [if_neg hc]
      exact ⟨_, rfl, rfl, fun h => absurd (Or.inl h) hc⟩

/-- Witness for C5: a back-face hit with ir = 3 and the incoming direction
orthogonal to the stored normal forces total internal reflection, so the
returned direction is the mirror reflection. -/
theorem C5_witness :
    ∃ sr, (Dielectric.mk 3).scatter rnd0 rayM recD =
        some (some sr, Vec.mk 1 1 1 VectorType.Color) ∧
      sr.direction = reflect rayM.direction.get_unit_vector recD.normal := by
  obtain ⟨sr, h1, _h2, h3⟩ := C5_dielectric_scatter (Dielectric.mk 3) rnd0 rayM recD
  refine ⟨sr, h1, h3 ?_⟩
  have hff : recD.front_face = False := rfl
  rw [hff, if_neg not_false]
  have hlen : (rayM.direction).len = 1 := by
    simp only [rayM, Vec.len, Vec.length_squared_mk]
    norm_num [Real.sqrt_one]
  have hunit : rayM.direction.get_unit_vector = Vec.mk 0 0 (-1) VectorType.Vector := by
    rw [Vec.get_unit_vector, hlen]
    simp only [rayM, Vec.divScalar_mk]
    norm_num
  rw [hunit]
  have hdot : ((-(Vec.mk 0 0 (-1) VectorType.Vector)).dot recD.normal) = 0 := by
    simp [recD]
  rw [hdot]
  norm_num [Real.sqrt_one]

/-- C3: ray_color is total (defined by structural recursion on depth), makes
at most depth recursive self-calls, each passing depth - 1, and at depth 0
returns the black color regardless of the input ray, random stream, or
scene. -/
theorem C3_ray_color_depth (world : List Sphere) (rnd : ℕ → RandDraw) (r : Ray)
    (depth : ℕ) :
    ray_color_calls world rnd r depth ≤ depth ∧
    ray_color world rnd r 0 = Vec.mk 0 0 0 VectorType.Color := by
  refine ⟨?_, rfl⟩
  induction depth generalizing rnd r with
  | zero => exact le_refl 0
  | succ n ih =>
    simp only [ray_color_calls]
    rcases hw : hit_world world r 0.0001 ⊤ with _ | rec
    · simp
    · rcases hs : rec.material.scatter (rnd 0) r rec with _ | ⟨_ | sr, att⟩
      · simp [hs]
      · simp [hs]
      · simp only [hs]
        have h := ih (fun k => rnd (k + 1)) sr
        omega

/-- C4: on a ray that hits nothing, ray_color at positive depth returns the
background gradient, a lerp between white and sky-blue driven by
t = 0.5 * (unit_direction.y + 1); the value depends only on the unit
direction's y component (equal for rays differing only in origin or
horizontal direction), giving pure white when that component is -1 and
sky-blue (0.5, 0.7, 1.0) when it is 1. -/
theorem C4_background_gradient (world : List Sphere) (rnd : ℕ → RandDraw) (r : Ray)
    (depth : ℕ) (hmiss : hit_world world r 0.0001 ⊤ = none) :
    ray_color world rnd r (depth + 1) =
      (1 - 0.5 * (r.direction.get_unit_vector.y + 1)) * Vec.mk 1 1 1 VectorType.Color +
        0.5 * (r.direction.get_unit_vector.y + 1) * Vec.mk 0.5 0.7 1 VectorType.Color ∧
    (∀ (world' : List Sphere) (rnd' : ℕ → RandDraw) (r' : Ray) (depth' : ℕ),
      hit_world world' r' 0.0001 ⊤ = none →
      r'.direction.get_unit_vector.y = r.direction.get_unit_vector.y →
      ray_color world' rnd' r' (depth' + 1) = ray_color world rnd r (depth + 1)) ∧
    (r.direction.get_unit_vector.y = -1 →
      ray_color world rnd r (depth + 1) = Vec.mk 1 1 1 VectorType.Color) ∧
    (r.direction.get_unit_vector.y = 1 →
      ray_color world rnd r (depth + 1) = Vec.mk 0.5 0.7 1 VectorType.Color) := by
  have hform : ∀ (w : List Sphere) (rs : ℕ → RandDraw) (rr : Ray) (dp : ℕ),
      hit_world w rr 0.0001 ⊤ = none →
      ray_color w rs rr (dp + 1) =
        (1 - 0.5 * (rr.direction.get_unit_vector.y + 1)) * Vec.mk 1 1 1 VectorType.Color +
          0.5 * (rr.direction.get_unit_vector.y + 1) *
            Vec.mk 0.5 0.7 1 VectorType.Color := by
    intro w rs rr dp hm
    simp only [ray_color, hm]
  have h1 := hform world rnd r depth hmiss
  refine ⟨h1, ?_, ?_, ?_⟩
  · intro world' rnd' r' depth' hm' hy
    rw [hform world' rnd' r' depth' hm', h1, hy]
  · intro hy
    rw [h1, hy]
    simp only [Vec.scalar_hmul_def, Vec.mulScalar_mk, Vec.add_mk, Vec.mk.injEq]
    norm_num
  · intro hy
    rw [h1, hy]
    simp only [Vec.scalar_hmul_def, Vec.mulScalar_mk, Vec.add_mk, Vec.mk.injEq]
    norm_num

/-- Witness for C4: against the empty scene, a ray pointing straight down
has unit direction y component -1 and ray_color returns pure white. -/
theorem C4_witness : ray_color [] rnd0s rayDownY 1 = Vec.mk 1 1 1 VectorType.Color := by
  apply (C4_background_gradient [] rnd0s rayDownY 0 rfl).2.2.1
  have hlen : (rayDownY.direction).len = 1 := by
    simp only [rayDownY, Vec.len, Vec.length_squared_mk]
    norm_num [Real.sqrt_one]
  rw [Vec.get_unit_vector, hlen]
  simp only [rayDownY, Vec.divScalar_mk]
  norm_num

@[simp] theorem Vec.neg_x (v : Vec) : (-v).x = -v.x := rfl

@[simp] theorem Vec.neg_y (v : Vec) : (-v).y = -v.y := rfl

@[simp] theorem Vec.neg_z (v : Vec) : (-v).z = -v.z := rfl

/-- Dot product with a negated right operand is the negated dot product. -/
theorem Vec.dot_neg (v w : Vec) : v.dot (-w) = -(v.dot w) := by
  simp only [Vec.dot, Vec.neg_x, Vec.neg_y, Vec.neg_z]
  ring

@[simp] theorem mkHitRecord_t (s : Sphere) (r : Ray) (root : ℝ) :
    (s.mkHitRecord r root).t = root := rfl

@[simp] theorem mkHitRecord_material (s : Sphere) (r : Ray) (root : ℝ) :
    (s.mkHitRecord r root).material = s.material := rfl

/-- Properties of the hit record built at an accepted root: parameter t,
intersection point, front-face flag, orientation-corrected normal, and the
non-positive dot product of the stored normal with the ray direction. -/
theorem mkHitRecord_spec (s : Sphere) (r : Ray) (root : ℝ) :
    (s.mkHitRecord r root).t = root ∧
    (s.mkHitRecord r root).point = r.at root ∧
    ((s.mkHitRecord r root).front_face ↔
      r.direction.dot ((r.at root - s.center) / s.radius) < 0) ∧
    (s.mkHitRecord r root).normal =
      (if r.direction.dot ((r.at root - s.center) / s.radius) < 0
       then (r.at root - s.center) / s.radius
       else -((r.at root - s.center) / s.radius)) ∧
    r.direction.dot (s.mkHitRecord r root).normal ≤ 0 := by
  refine ⟨rfl, rfl, Iff.rfl, rfl, ?_⟩
  by_cases h : r.direction.dot ((r.at root - s.center) / s.radius) < 0
  · have hn : (s.mkHitRecord r root).normal = (r.at root - s.center) / s.radius := by
      show (if r.direction.dot ((r.at root - s.center) / s.radius) < 0
            then (r.at root - s.center) / s.radius
            else -((r.at root - s.center) / s.radius)) = _
      rw [if_pos h]
    rw [hn]
    exact le_of_lt h
  · have hn : (s.mkHitRecord r root).normal = -((r.at root - s.center) / s.radius) := by
      show (if r.direction.dot ((r.at root - s.center) / s.radius) < 0
            then (r.at root - s.center) / s.radius
            else -((r.at root - s.center) / s.radius)) = _
      rw [if_neg h]
    rw [hn, Vec.dot_neg]
    have := not_lt.mp h
    linarith

/-- C1: Sphere::hit returns None when the discriminant half_b^2 - a*c is
negative, or when both quadratic roots (-half_b - sqrt(d))/a and
(-half_b + sqrt(d))/a lie outside [t_min, t_max]; otherwise it returns a
HitRecord whose t is the smaller root if that is in range, else the larger
root, whose point is ray.at(t), whose front_face equals
dot(direction, (point - center)/radius) < 0, whose stored normal is the
outward normal (point - center)/radius when front_face holds and its
negation otherwise, and whose stored normal never has positive dot product
with the incoming ray direction. -/
theorem C1_sphere_hit (s : Sphere) (r : Ray) (t_min : ℝ) (t_max : EReal) :
    (s.hit r t_min t_max = none ↔
      s.discriminant r < 0 ∨
        ((s.root1 r < t_min ∨ t_max < (s.root1 r : EReal)) ∧
         (s.root2 r < t_min ∨ t_max < (s.root2 r : EReal)))) ∧
    ∀ rec, s.hit r t_min t_max = some rec →
      rec.t = (if s.root1 r < t_min ∨ t_max < (s.root1 r : EReal) then s.root2 r
               else s.root1 r) ∧
      rec.point = r.at rec.t ∧
      (rec.front_face ↔ r.direction.dot ((r.at rec.t - s.center) / s.radius) < 0) ∧
      rec.normal = (if r.direction.dot ((r.at rec.t - s.center) / s.radius) < 0
                    then (r.at rec.t - s.center) / s.radius
                    else -((r.at rec.t - s.center) / s.radius)) ∧
      r.direction.dot rec.normal ≤ 0 := by
  constructor
  · unfold Sphere.hit
    by_cases hd : s.discriminant r < 0
    · rw [if_pos hd]
      simp [hd]
    · rw [if_neg hd]
      by_cases h1 : s.root1 r < t_min ∨ t_max < (s.root1 r : EReal)
      · rw [if_pos h1]
        by_cases h2 : s.root2 r < t_min ∨ t_max < (s.root2 r : EReal)
        · rw [if_pos h2]
          simp [hd, h1, h2]
        · rw [if_neg h2]
          simp [hd, h1, h2]
      · rw [if_neg h1]
        simp [hd, h1]
  · intro rec hrec
    unfold Sphere.hit at hrec
    by_cases hd : s.discriminant r < 0
    · rw [if_pos hd] at hrec
      exact absurd hrec (by simp)
    · rw [if_neg hd] at hrec
      by_cases h1 : s.root1 r < t_min ∨ t_max < (s.root1 r : EReal)
      · rw [if_pos h1] at hrec
        by_cases h2 : s.root2 r < t_min ∨ t_max < (s.root2 r : EReal)
        · rw [if_pos h2] at hrec
          exact absurd hrec (by simp)
        · rw [if_neg h2] at hrec
          injection hrec with hrec
          subst hrec
          obtain ⟨ht, hp, hf, hn, hd0⟩ := mkHitRecord_spec s r (s.root2 r)
          rw [if_pos h1, mkHitRecord_t]
          exact ⟨rfl, hp, hf, hn, hd0⟩
      · rw [if_neg h1] at hrec
        injection hrec with hrec
        subst hrec
        obtain ⟨ht, hp, hf, hn, hd0⟩ := mkHitRecord_spec s r (s.root1 r)
        rw [if_neg h1, mkHitRecord_t]
        exact ⟨rfl, hp, hf, hn, hd0⟩

/-- Unit sphere at the origin with a chosen material. -/
noncomputable def unitSphere (m : Material) : Sphere :=
  ⟨Vec.mk 0 0 0 VectorType.Point, 1, m⟩

/-- Ray from (0,0,5) toward the origin. -/
noncomputable def rayHit : Ray :=
  ⟨Vec.mk 0 0 5 VectorType.Point, Vec.mk 0 0 (-1) VectorType.Vector⟩

/-- Lambertian material fixture for the intersection tests. -/
noncomputable def matL : Material := Material.lambertian lambWhite

/-- Metal material fixture for the intersection tests. -/
noncomputable def matMetal : Material := Material.metal ⟨albM, 0⟩

theorem unitSphere_disc (m : Material) : (unitSphere m).discriminant rayHit = 1 := by
  simp only [Sphere.discriminant, Sphere.hitA, Sphere.hitHalfB, Sphere.hitC,
    unitSphere, rayHit, Vec.sub_mk, Vec.dot_mk, Vec.length_squared_mk]
  norm_num

theorem unitSphere_root1 (m : Material) : (unitSphere m).root1 rayHit = 4 := by
  rw [Sphere.root1, unitSphere_disc, Real.sqrt_one]
  simp only [Sphere.hitHalfB, Sphere.hitA, unitSphere, rayHit, Vec.sub_mk,
    Vec.dot_mk, Vec.length_squared_mk]
  norm_num

theorem unitSphere_root2 (m : Material) : (unitSphere m).root2 rayHit = 6 := by
  rw [Sphere.root2, unitSphere_disc, Real.sqrt_one]
  simp only [Sphere.hitHalfB, Sphere.hitA, unitSphere, rayHit, Vec.sub_mk,
    Vec.dot_mk, Vec.length_squared_mk]
  norm_num

/-- Concrete intersection: for any upper bound at least 4, the unit sphere is
hit by rayHit at the smaller root 4. -/
theorem unitSphere_hit (m : Material) (t_max : EReal) (h : ((4:ℝ) : EReal) ≤ t_max) :
    (unitSphere m).hit rayHit 0 t_max = some ((unitSphere m).mkHitRecord rayHit 4) := by
  have hd : ¬ (unitSphere m).discriminant rayHit < 0 := by
    rw [unitSphere_disc]
    norm_num
  have h1 : ¬ ((unitSphere m).root1 rayHit < 0 ∨
      t_max < ((unitSphere m).root1 rayHit : EReal)) := by
    rw [unitSphere_root1]
    push_neg
    exact ⟨by norm_num, not_lt.mp (fun hlt => absurd (lt_of_le_of_lt h hlt) (lt_irrefl _))⟩
  rw [Sphere.hit, if_neg hd, if_neg h1, unitSphere_root1]

/-- Witness for C1: the unit sphere hit by rayHit with range [0, 10] yields
the record at root 4, whose stored normal has non-positive dot product with
the ray direction. -/
theorem C1_witness :
    rayHit.direction.dot ((unitSphere matL).mkHitRecord rayHit 4).normal ≤ 0 :=
  ((C1_sphere_hit (unitSphere matL) rayHit 0 ((10:ℝ) : EReal)).2
    ((unitSphere matL).mkHitRecord rayHit 4)
    (unitSphere_hit matL ((10:ℝ) : EReal)
      (EReal.coe_le_coe_iff.mpr (by norm_num)))).2.2.2.2

theorem hitA_nonneg (s : Sphere) (r : Ray) : 0 ≤ s.hitA r := by
  rw [Sphere.hitA, Vec.length_squared]
  have hx := mul_self_nonneg r.direction.x
  have hy := mul_self_nonneg r.direction.y
  have hz := mul_self_nonneg r.direction.z
  linarith

/-- The smaller-root formula never exceeds the larger-root formula. -/
theorem root1_le_root2 (s : Sphere) (r : Ray) : s.root1 r ≤ s.root2 r := by
  rw [Sphere.root1, Sphere.root2]
  have hs := Real.sqrt_nonneg (s.discriminant r)
  rcases (hitA_nonneg s r).eq_or_lt with h0 | hpos
  · rw [← h0, div_zero, div_zero]
  · exact (div_le_div_iff_of_pos_right hpos).mpr (by linarith)

/-- Exhaustive case analysis of Sphere::hit: it returns none with the
rejection condition, or the record at the smaller root when that root is in
range, or the record at the larger root when only that one is in range. -/
theorem hit_cases (s : Sphere) (r : Ray) (t_min : ℝ) (t_max : EReal) :
    (s.hit r t_min t_max = none ∧
      (s.discriminant r < 0 ∨
        ((s.root1 r < t_min ∨ t_max < (s.root1 r : EReal)) ∧
         (s.root2 r < t_min ∨ t_max < (s.root2 r : EReal))))) ∨
    (¬ s.discriminant r < 0 ∧
      ¬ (s.root1 r < t_min ∨ t_max < (s.root1 r : EReal)) ∧
      s.hit r t_min t_max = some (s.mkHitRecord r (s.root1 r))) ∨
    (¬ s.discriminant r < 0 ∧
      (s.root1 r < t_min ∨ t_max < (s.root1 r : EReal)) ∧
      ¬ (s.root2 r < t_min ∨ t_max < (s.root2 r : EReal)) ∧
      s.hit r t_min t_max = some (s.mkHitRecord r (s.root2 r))) := by
  by_cases hd : s.discriminant r < 0
  · exact Or.inl ⟨by rw [Sphere.hit, if_pos hd], Or.inl hd⟩
  · by_cases h1 : s.root1 r < t_min ∨ t_max < (s.root1 r : EReal)
    · by_cases h2 : s.root2 r < t_min ∨ t_max < (s.root2 r : EReal)
      · exact Or.inl ⟨by rw [Sphere.hit, if_neg hd, if_pos h1, if_pos h2],
          Or.inr ⟨h1, h2⟩⟩
      · exact Or.inr (Or.inr ⟨hd, h1, h2,
          by rw [Sphere.hit, if_neg hd, if_pos h1, if_neg h2]⟩)
    · exact Or.inr (Or.inl ⟨hd, h1, by rw [Sphere.hit, if_neg hd, if_neg h1]⟩)

/-- An accepted hit parameter lies in [t_min, t_max]. -/
theorem hit_t_mem (s : Sphere) (r : Ray) (t_min : ℝ) (t_max : EReal)
    (rec : HitRecord) (h : s.hit r t_min t_max = some rec) :
    t_min ≤ rec.t ∧ (rec.t : EReal) ≤ t_max := by
  rcases hit_cases s r t_min t_max with ⟨hn, _⟩ | ⟨_, h1, he⟩ | ⟨_, _, h2, he⟩
  · rw [h] at hn
    exact absurd hn (by simp)
  · rw [he] at h
    injection h with h
    subst h
    push_neg at h1
    rw [mkHitRecord_t]
    exact ⟨h1.1, h1.2⟩
  · rw [he] at h
    injection h with h
    subst h
    push_neg at h2
    rw [mkHitRecord_t]
    exact ⟨h2.1, h2.2⟩

/-- Enlarging the upper bound preserves an accepted hit, with the very same
record: the accepted root and all derived fields are unchanged. -/
theorem hit_grow (s : Sphere) (r : Ray) (t_min : ℝ) {tm tM : EReal} (hle : tm ≤ tM)
    {rec : HitRecord} (h : s.hit r t_min tm = some rec) :
    s.hit r t_min tM = some rec := by
  rcases hit_cases s r t_min tm with ⟨hn, _⟩ | ⟨hd, h1, he⟩ | ⟨hd, h1, h2, he⟩
  · rw [h] at hn
    exact absurd hn (by simp)
  · rw [he] at h
    injection h with h
    subst h
    push_neg at h1
    have hout1 : ¬ (s.root1 r < t_min ∨ tM < (s.root1 r : EReal)) := by
      push_neg
      exact ⟨h1.1, le_trans h1.2 hle⟩
    rw [Sphere.hit, if_neg hd, if_neg hout1]
  · rw [he] at h
    injection h with h
    subst h
    push_neg at h2
    have hr1 : s.root1 r < t_min := by
      rcases h1 with h1 | h1
      · exact h1
      · exfalso
        have hcoe : ((s.root1 r : ℝ) : EReal) ≤ ((s.root2 r : ℝ) : EReal) :=
          EReal.coe_le_coe_iff.mpr (root1_le_root2 s r)
        exact absurd (lt_of_le_of_lt (le_trans hcoe h2.2) h1) (lt_irrefl _)
    have hout2 : ¬ (s.root2 r < t_min ∨ tM < (s.root2 r : EReal)) := by
      push_neg
      exact ⟨h2.1, le_trans h2.2 hle⟩
    rw [Sphere.hit, if_neg hd, if_pos (Or.inl hr1), if_neg hout2]

/-- Shrinking the upper bound keeps an accepted hit exactly when its
parameter still fits, and otherwise rejects the sphere entirely. -/
theorem hit_shrink (s : Sphere) (r : Ray) (t_min : ℝ) {tm tM : EReal} (_hle : tm ≤ tM)
    {rec : HitRecord} (h : s.hit r t_min tM = some rec) :
    ((rec.t : EReal) ≤ tm → s.hit r t_min tm = some rec) ∧
    (tm < (rec.t : EReal) → s.hit r t_min tm = none) := by
  rcases hit_cases s r t_min tM with ⟨hn, _⟩ | ⟨hd, h1, he⟩ | ⟨hd, h1, h2, he⟩
  · rw [h] at hn
    exact absurd hn (by simp)
  · rw [he] at h
    injection h with h
    subst h
    simp only [mkHitRecord_t]
    push_neg at h1
    constructor
    · intro hin
      have hout1 : ¬ (s.root1 r < t_min ∨ tm < (s.root1 r : EReal)) := by
        push_neg
        exact ⟨h1.1, hin⟩
      rw [Sphere.hit, if_neg hd, if_neg hout1]
    · intro hout
      have hout2 : s.root2 r < t_min ∨ tm < (s.root2 r : EReal) := by
        right
        have hcoe : ((s.root1 r : ℝ) : EReal) ≤ ((s.root2 r : ℝ) : EReal) :=
          EReal.coe_le_coe_iff.mpr (root1_le_root2 s r)
        exact lt_of_lt_of_le hout hcoe
      rw [Sphere.hit, if_neg hd, if_pos (Or.inr hout), if_pos hout2]
  · rw [he] at h
    injection h with h
    subst h
    simp only [mkHitRecord_t]
    push_neg at h2
    have hr1 : s.root1 r < t_min := by
      rcases h1 with h1 | h1
      · exact h1
      · exfalso
        have hcoe : ((s.root1 r : ℝ) : EReal) ≤ ((s.root2 r : ℝ) : EReal) :=
          EReal.coe_le_coe_iff.mpr (root1_le_root2 s r)
        exact absurd (lt_of_le_of_lt (le_trans hcoe h2.2) h1) (lt_irrefl _)
    constructor
    · intro hin
      have hout2 : ¬ (s.root2 r < t_min ∨ tm < (s.root2 r : EReal)) := by
        push_neg
        exact ⟨h2.1, hin⟩
      rw [Sphere.hit, if_neg hd, if_pos (Or.inl hr1), if_neg hout2]
    · intro hout
      rw [Sphere.hit, if_neg hd, if_pos (Or.inl hr1), if_pos (Or.inr hout)]

/-- Shrinking the upper bound preserves a miss. -/
theorem hit_none_mono (s : Sphere) (r : Ray) (t_min : ℝ) {tm tM : EReal}
    (hle : tm ≤ tM) (h : s.hit r t_min tM = none) : s.hit r t_min tm = none := by
  rcases hit_cases s r t_min tM with ⟨_, hcond⟩ | ⟨_, _, he⟩ | ⟨_, _, _, he⟩
  · rcases hcond with hd | ⟨h1, h2⟩
    · rw [Sphere.hit, if_pos hd]
    · by_cases hd : s.discriminant r < 0
      · rw [Sphere.hit, if_pos hd]
      · have h1' : s.root1 r < t_min ∨ tm < (s.root1 r : EReal) := by
          rcases h1 with h1 | h1
          · exact Or.inl h1
          · exact Or.inr (lt_of_le_of_lt hle h1)
        have h2' : s.root2 r < t_min ∨ tm < (s.root2 r : EReal) := by
          rcases h2 with h2 | h2
          · exact Or.inl h2
          · exact Or.inr (lt_of_le_of_lt hle h2)
        rw [Sphere.hit, if_neg hd, if_pos h1', if_pos h2']
  · rw [he] at h
    exact absurd h (by simp)
  · rw [he] at h
    exact absurd h (by simp)

/-- Invariant specification of the hit_world scan loop: starting from a
closest bound at most t_max, with an accumulator that is none exactly when
the bound is still t_max and otherwise holds a record whose parameter equals
the bound, the loop returns none precisely when the accumulator was none and
every listed sphere misses at the full range; any returned record has
parameter at most the bound, is the accumulator or a full-range hit of a
listed sphere, and has minimal parameter among the accumulator and all
full-range hits of listed spheres. -/
theorem hit_world_loop_spec (r : Ray) (t_min : ℝ) (t_max : EReal) :
    ∀ (l : List Sphere) (closest : EReal) (acc : Option HitRecord),
      closest ≤ t_max →
      (acc = none → closest = t_max) →
      (∀ rec0, acc = some rec0 → (rec0.t : EReal) = closest) →
      ((hit_world_loop r t_min l closest acc = none ↔
          acc = none ∧ ∀ s ∈ l, s.hit r t_min t_max = none) ∧
       ∀ rec, hit_world_loop r t_min l closest acc = some rec →
         ((rec.t : EReal) ≤ closest ∧
          (acc = some rec ∨ ∃ s ∈ l, s.hit r t_min t_max = some rec) ∧
          (∀ rec0, acc = some rec0 → rec.t ≤ rec0.t) ∧
          (∀ s ∈ l, ∀ rec1, s.hit r t_min t_max = some rec1 → rec.t ≤ rec1.t))) := by
  intro l
  induction l with
  | nil =>
    intro closest acc hct hnone hsome
    refine ⟨by simp [hit_world_loop], ?_⟩
    intro rec hrec
    simp only [hit_world_loop] at hrec
    refine ⟨le_of_eq (hsome rec hrec), Or.inl hrec, ?_, by simp⟩
    intro rec0 h0
    rw [hrec] at h0
    injection h0 with h0
    exact le_of_eq (congrArg HitRecord.t h0)
  | cons sphere rest ih =>
    intro closest acc hct hnone hsome
    rcases hh : sphere.hit r t_min closest with _ | hhit
    · have hres := ih closest acc hct hnone hsome
      constructor
      · simp only [hit_world_loop, hh]
        rw [hres.1]
        constructor
        · rintro ⟨haccn, hall⟩
          refine ⟨haccn, ?_⟩
          intro s hs
          rcases List.mem_cons.mp hs with hs | hs
          · subst hs
            rw [← hnone haccn]
            exact hh
          · exact hall s hs
        · rintro ⟨haccn, hall⟩
          exact ⟨haccn, fun s hs => hall s (List.mem_cons_of_mem _ hs)⟩
      · intro rec hrec
        simp only [hit_world_loop, hh] at hrec
        obtain ⟨hle1, hprov, haccmin, hrestmin⟩ := hres.2 rec hrec
        refine ⟨hle1, ?_, haccmin, ?_⟩
        · rcases hprov with hp | ⟨s, hs, hp⟩
          · exact Or.inl hp
          · exact Or.inr ⟨s, List.mem_cons_of_mem _ hs, hp⟩
        · intro s hs rec1 h1
          rcases List.mem_cons.mp hs with hs | hs
          · subst hs
            by_cases hin : (rec1.t : EReal) ≤ closest
            · have hcontr := (hit_shrink s r t_min hct h1).1 hin
              rw [hh] at hcontr
              exact absurd hcontr (by simp)
            · have hlt : closest < (rec1.t : EReal) := not_le.mp hin
              exact le_of_lt (EReal.coe_lt_coe_iff.mp (lt_of_le_of_lt hle1 hlt))
          · exact hrestmin s hs rec1 h1
    · have hfull : sphere.hit r t_min t_max = some hhit := hit_grow sphere r t_min hct hh
      have htmem := hit_t_mem sphere r t_min closest hhit hh
      have hres := ih ((hhit.t : ℝ) : EReal) (some hhit) (le_trans htmem.2 hct)
        (fun h' => absurd h' (by simp))
        (fun rec0 h0 => by
          injection h0 with h0
          rw [h0])
      constructor
      · simp only [hit_world_loop, hh]
        rw [hres.1]
        constructor
        · rintro ⟨h0, _⟩
          exact absurd h0 (by simp)
        · rintro ⟨_, hall⟩
          have hcontr := hall sphere (List.mem_cons_self _ _)
          rw [hfull] at hcontr
          exact absurd hcontr (by simp)
      · intro rec hrec
        simp only [hit_world_loop, hh] at hrec
        obtain ⟨hle1, hprov, haccmin, hrestmin⟩ := hres.2 rec hrec
        have hrecle : (rec.t : EReal) ≤ closest := le_trans hle1 htmem.2
        refine ⟨hrecle, ?_, ?_, ?_⟩
        · rcases hprov with hp | ⟨s, hs, hp⟩
          · injection hp with hp
            subst hp
            exact Or.inr ⟨sphere, List.mem_cons_self _ _, hfull⟩
          · exact Or.inr ⟨s, List.mem_cons_of_mem _ hs, hp⟩
        · intro rec0 h0
          have h0t := hsome rec0 h0
          refine EReal.coe_le_coe_iff.mp ?_
          rw [h0t]
          exact hrecle
        · intro s hs rec1 h1
          rcases List.mem_cons.mp hs with hs | hs
          · subst hs
            rw [hfull] at h1
            injection h1 with h1
            subst h1
            exact haccmin hhit rfl
          · exact hrestmin s hs rec1 h1

/-- C2 (amended): hit_world returns none exactly when no sphere has a hit in
[t_min, t_max]; otherwise it returns a record that is itself a full-range
hit of one of the spheres and whose t is the minimum over all spheres'
accepted hit parameters, so the returned t is the same for every
permutation of the sphere list.  Only the parameter t, not the full record,
is permutation-invariant: when two spheres attain the same minimal t the
last such sphere in scan order provides the record. -/
theorem C2_hit_world_nearest (world : List Sphere) (r : Ray) (t_min : ℝ)
    (t_max : EReal) :
    (hit_world world r t_min t_max = none ↔
      ∀ s ∈ world, s.hit r t_min t_max = none) ∧
    (∀ rec, hit_world world r t_min t_max = some rec →
      (∃ s ∈ world, s.hit r t_min t_max = some rec) ∧
      (∀ s ∈ world, ∀ rec1, s.hit r t_min t_max = some rec1 → rec.t ≤ rec1.t)) ∧
    (∀ world', world.Perm world' →
      Option.map HitRecord.t (hit_world world r t_min t_max) =
        Option.map HitRecord.t (hit_world world' r t_min t_max)) := by
  have hspec : ∀ (w : List Sphere),
      (hit_world w r t_min t_max = none ↔ ∀ s ∈ w, s.hit r t_min t_max = none) ∧
      (∀ rec, hit_world w r t_min t_max = some rec →
        (∃ s ∈ w, s.hit r t_min t_max = some rec) ∧
        (∀ s ∈ w, ∀ rec1, s.hit r t_min t_max = some rec1 → rec.t ≤ rec1.t)) := by
    intro w
    have h := hit_world_loop_spec r t_min t_max w t_max none (le_refl _)
      (fun _ => rfl) (fun rec0 h0 => absurd h0 (by simp))
    constructor
    · unfold hit_world
      rw [h.1]
      simp
    · intro rec hrec
      unfold hit_world at hrec
      obtain ⟨_, hprov, _, hmin⟩ := h.2 rec hrec
      refine ⟨?_, hmin⟩
      rcases hprov with hp | hp
      · exact absurd hp (by simp)
      · exact hp
  refine ⟨(hspec world).1, (hspec world).2, ?_⟩
  intro world' hperm
  rcases hw : hit_world world r t_min t_max with _ | rec
  · rcases hw' : hit_world world' r t_min t_max with _ | rec'
    · rfl
    · exfalso
      have hall := (hspec world).1.mp hw
      have hn : hit_world world' r t_min t_max = none :=
        (hspec world').1.mpr (fun s hs => hall s (hperm.symm.subset hs))
      rw [hw'] at hn
      exact absurd hn (by simp)
  · rcases hw' : hit_world world' r t_min t_max with _ | rec'
    · exfalso
      have hall := (hspec world').1.mp hw'
      have hn : hit_world world r t_min t_max = none :=
        (hspec world).1.mpr (fun s hs => hall s (hperm.subset hs))
      rw [hw] at hn
      exact absurd hn (by simp)
    · obtain ⟨⟨s, hs, hshit⟩, hmin⟩ := (hspec world).2 rec hw
      obtain ⟨⟨s', hs', hshit'⟩, hmin'⟩ := (hspec world').2 rec' hw'
      have h1 : rec.t ≤ rec'.t := hmin s' (hperm.symm.subset hs') rec' hshit'
      have h2 : rec'.t ≤ rec.t := hmin' s (hperm.subset hs) rec hshit
      show some rec.t = some rec'.t
      exact congrArg some (le_antisymm h1 h2)

/-- Lambertian-material unit sphere. -/
noncomputable def sphL : Sphere := unitSphere matL

/-- Metal-material unit sphere, geometrically identical to sphL. -/
noncomputable def sphM : Sphere := unitSphere matMetal

/-- C2 counterexample: two geometrically identical spheres with different
materials are both hit at t = 4; swapping their order in the list changes
which record hit_world returns (the later minimal-t sphere wins), refuting
the claim that the returned record is the same for every permutation. -/
theorem C2_counterexample :
    List.Perm [sphL, sphM] [sphM, sphL] ∧
    Option.map HitRecord.material (hit_world [sphL, sphM] rayHit 0 ((10:ℝ) : EReal)) =
      some matMetal ∧
    Option.map HitRecord.material (hit_world [sphM, sphL] rayHit 0 ((10:ℝ) : EReal)) =
      some matL ∧
    matL ≠ matMetal := by
  have h10 : ((4:ℝ) : EReal) ≤ ((10:ℝ) : EReal) := EReal.coe_le_coe_iff.mpr (by norm_num)
  have h4 : ((4:ℝ) : EReal) ≤ ((4:ℝ) : EReal) := le_refl _
  have hL10 : sphL.hit rayHit 0 ((10:ℝ) : EReal) = some (sphL.mkHitRecord rayHit 4) :=
    unitSphere_hit matL _ h10
  have hM10 : sphM.hit rayHit 0 ((10:ℝ) : EReal) = some (sphM.mkHitRecord rayHit 4) :=
    unitSphere_hit matMetal _ h10
  have hL4 : sphL.hit rayHit 0 ((4:ℝ) : EReal) = some (sphL.mkHitRecord rayHit 4) :=
    unitSphere_hit matL _ h4
  have hM4 : sphM.hit rayHit 0 ((4:ℝ) : EReal) = some (sphM.mkHitRecord rayHit 4) :=
    unitSphere_hit matMetal _ h4
  refine ⟨List.Perm.swap sphM sphL [], ?_, ?_, ?_⟩
  · simp only [hit_world, hit_world_loop, hL10, mkHitRecord_t, hM4,
      mkHitRecord_material, Option.map_some]
    rfl
  · simp only [hit_world, hit_world_loop, hM10, mkHitRecord_t, hL4,
      mkHitRecord_material, Option.map_some]
    rfl
  · intro hcontr
    rw [matL, matMetal] at hcontr
    exact absurd hcontr (by simp)

/-- Witness for C2: the two permuted sphere lists of the counterexample
yield the same hit parameter t. -/
theorem C2_witness :
    Option.map HitRecord.t (hit_world [sphL, sphM] rayHit 0 ((10:ℝ) : EReal)) =
      Option.map HitRecord.t (hit_world [sphM, sphL] rayHit 0 ((10:ℝ) : EReal)) :=
  (C2_hit_world_nearest [sphL, sphM] rayHit 0 ((10:ℝ) : EReal)).2.2 [sphM, sphL]
    (List.Perm.swap sphM sphL [])
